import Mathlib

/-!
Verification of the minesweeper rules engine (`src/lib.rs`, `src/mine_sweeper_cell.rs`)
against its natural-language specification.

The Rust source is shallowly embedded below.  Conventions used throughout:

* A Rust `Vec<Cell>` becomes a Lean `List Cell`; `v[i]` access (which panics when
  out of bounds in Rust) becomes `List.getD i default`, and every theorem about a
  particular index carries an explicit in-bounds hypothesis, so the panicking
  case is never relied upon.
* `js_sys::Math::random()` (a uniform `f64` in `[0,1)`) is treated as an injected
  random source: an arbitrary stream `us : Nat → ℚ` of values, consumed one per
  call; hypotheses require `0 ≤ us n < 1` exactly as the JS API guarantees.
* The two `while`/recursive procedures (`connected_lone_cell_indices` and the
  mutually recursive `reveal_cell`/`reveal_lone_cells`) are embedded with an
  explicit fuel argument.  The fuel supplied at the entry points
  (`9 * grid.length + 9`, resp. `grid.length + 2`) strictly dominates the number
  of iterations the Rust loops can perform (the worklist receives at most
  `1 + 8 * grid.length` pushes; each recursion level of `reveal_cell` reveals at
  least one previously unrevealed cell), so on every input on which the Rust
  code terminates the embedding computes the same result.
* `adj_mine_count` is a `u8` in Rust; it is embedded as `Nat` without a
  wrap-around because the code only ever increments it once per adjacent mine,
  to at most 8, far below 256.
* `usize` is 32 bits wide on the `wasm32` target this crate is compiled for;
  the one place where unsigned wrap-around is reachable (`remaining_flags`)
  carries an explicit `% 2 ^ 32`.
-/

/-- `CellState` from `mine_sweeper_cell.rs`: the reveal/mark state of a cell. -/
inductive CellState where
  | Revealed
  | Flagged
  | Questioned
  | Hidden
deriving DecidableEq

/-- `CellKind` from `mine_sweeper_cell.rs`: mined or empty. -/
inductive CellKind where
  | Mine
  | Empty
deriving DecidableEq

/-- `Cell` from `mine_sweeper_cell.rs`: state, kind and precomputed adjacent
mine count. -/
structure Cell where
  state : CellState
  kind : CellKind
  adj_mine_count : Nat
deriving DecidableEq

instance : Inhabited Cell := ⟨⟨CellState.Hidden, CellKind.Empty, 0⟩⟩

/-- `Cell::new`: a Hidden cell of the given kind with adjacent mine count 0. -/
def Cell.new (kind : CellKind) : Cell :=
  { state := CellState.Hidden, kind := kind, adj_mine_count := 0 }

/-- `Cell::is_flagged`. -/
def Cell.is_flagged (c : Cell) : Bool := c.state == CellState.Flagged

/-- `Cell::is_questioned`. -/
def Cell.is_questioned (c : Cell) : Bool := c.state == CellState.Questioned

/-- `Cell::is_revealed`. -/
def Cell.is_revealed (c : Cell) : Bool := c.state == CellState.Revealed

/-- `Cell::is_mined`. -/
def Cell.is_mined (c : Cell) : Bool := c.kind == CellKind.Mine

/-- `Cell::set_state`. -/
def Cell.set_state (c : Cell) (s : CellState) : Cell := { c with state := s }

/-- `Cell::set_adj_mine_count`. -/
def Cell.set_adj_mine_count (c : Cell) (count : Nat) : Cell :=
  { c with adj_mine_count := count }

/-- `Cell::is_lone_cell`: empty and no adjacent mines. -/
def Cell.is_lone_cell (c : Cell) : Bool :=
  c.kind == CellKind.Empty && c.adj_mine_count == 0

/-- The `Minesweeper` struct from `lib.rs`: a row-major flat grid of cells plus
the dimensions. -/
structure Minesweeper where
  grid : List Cell
  num_rows : Nat
  num_cols : Nat
deriving DecidableEq

/-- Reading `self.grid[index]` (in-bounds in all uses proved below). -/
def Minesweeper.cell_at (g : Minesweeper) (index : Nat) : Cell :=
  g.grid.getD index default

/-- Writing `self.grid[index].set_state(s)`. -/
def Minesweeper.write_state (g : Minesweeper) (index : Nat) (s : CellState) :
    Minesweeper :=
  { g with grid := g.grid.set index ((g.cell_at index).set_state s) }

/-- `Minesweeper::empty_grid`: `rows*cols` empty hidden cells. -/
def Minesweeper.empty_grid (rows cols : Nat) : List Cell :=
  List.replicate (rows * cols) (Cell.new CellKind.Empty)

/-- Swapping two in-bounds positions of a vector, `Vec::swap(i, j)`. -/
def list_swap (v : List Nat) (i j : Nat) : List Nat :=
  (v.set i (v.getD j 0)).set j (v.getD i 0)

/-- The loop body chain of `Minesweeper::shuffle`: walk the positions
`[len-1, len-2, …, 1]`, at position `i` draw `u` from the stream and swap
`v[i]` with `v[⌊u * i⌋]`.  Note the Rust code multiplies by `i`, not `i + 1`:
`floor(random() * i as f64) as usize`. -/
def shuffle_go (us : Nat → ℚ) : Nat → List Nat → List Nat → List Nat
  | _, [], v => v
  | k, i :: rest, v =>
      shuffle_go us (k + 1) rest (list_swap v i (⌊us k * (i : ℚ)⌋.toNat))

/-- `Minesweeper::shuffle` with the random source injected as the stream `us`:
`for i in (1..v.len()).rev() { v.swap(i, floor(random() * i as f64) as usize) }`. -/
def Minesweeper.shuffle (us : Nat → ℚ) (v : List Nat) : List Nat :=
  shuffle_go us 0 (List.range' 1 (v.length - 1)).reverse v

/-- `Minesweeper::gen_rand_grid_indices`: shuffle `[0, …, len-1]` and keep the
first `count` entries. -/
def Minesweeper.gen_rand_grid_indices (us : Nat → ℚ) (len count : Nat) :
    List Nat :=
  (Minesweeper.shuffle us (List.range len)).take count

/-- `Minesweeper::adjacent_indices`: indices of the 3×3 window around `index`
clipped to the grid, excluding `index` itself, in the source's loop order. -/
def Minesweeper.adjacent_indices (num_rows num_cols index : Nat) : List Nat :=
  let r := index / num_cols
  let c := index % num_cols
  let rstart := if r ≤ 1 then 0 else r - 1
  let cstart := if c ≤ 1 then 0 else c - 1
  let rend := if num_rows ≤ r + 1 then num_rows - 1 else r + 1
  let cend := if num_cols ≤ c + 1 then num_cols - 1 else c + 1
  (List.range' rstart (rend + 1 - rstart)).flatMap (fun nr =>
    (List.range' cstart (cend + 1 - cstart)).filterMap (fun nc =>
      if nr = r ∧ nc = c then none else some (nr * num_cols + nc)))

/-- The `while !to_visit.is_empty()` loop of
`Minesweeper::connected_lone_cell_indices`, with fuel.  The worklist pops from
the back (`Vec::pop`) and appends newly found adjacent lone cells at the back. -/
def lone_loop (g : Minesweeper) :
    Nat → List Nat → List Nat → List Nat → List Nat
  | 0, _, _, connected_ndxs => connected_ndxs
  | fuel + 1, visited, to_visit, connected_ndxs =>
    match to_visit.getLast? with
    | none => connected_ndxs
    | some cur_ndx =>
      let rest := to_visit.dropLast
      if visited.contains cur_ndx then
        lone_loop g fuel visited rest connected_ndxs
      else
        let connected_ndxs' :=
          if (g.cell_at cur_ndx).is_lone_cell then connected_ndxs ++ [cur_ndx]
          else connected_ndxs
        let adj_ndxs :=
          (Minesweeper.adjacent_indices g.num_rows g.num_cols cur_ndx).filter
            (fun ndx => (g.cell_at ndx).is_lone_cell)
        lone_loop g fuel (visited ++ [cur_ndx]) (rest ++ adj_ndxs) connected_ndxs'

/-- `Minesweeper::connected_lone_cell_indices`: flood fill (iterative DFS) over
lone cells starting from `index`.  The fuel `9 * grid.length + 9` exceeds the
total number of worklist pushes (at most `1 + 8 * grid.length`), so the loop
always reaches its natural end. -/
def Minesweeper.connected_lone_cell_indices (g : Minesweeper) (index : Nat) :
    List Nat :=
  lone_loop g (9 * g.grid.length + 9) [] [index] []

/-- The perimeter collected by `Minesweeper::reveal_lone_cells`: the union of
all cells adjacent to any cell of the connected lone region of `index`.  The
Rust code collects it into a `HashSet`, whose iteration order is unspecified;
it is embedded as the duplicate-free list `List.dedup` of the collected
indices (the final grid does not depend on the traversal order: every reveal
writes the same state). -/
def Minesweeper.perimeter_of (g : Minesweeper) (index : Nat) : List Nat :=
  ((g.connected_lone_cell_indices index).flatMap
    (fun ndx => Minesweeper.adjacent_indices g.num_rows g.num_cols ndx)).dedup

/-- `Minesweeper::reveal_cell` with fuel: no-op when already revealed,
otherwise set the state to Revealed and, if the cell is lone, cascade.  The
body of the mutually recursive `Minesweeper::reveal_lone_cells` is inlined in
the lone-cell branch (see `reveal_lone_cells_fuel` below for it as a named
function): reveal the connected lone region of `index` and then every cell
adjacent to that region (the perimeter). -/
def reveal_cell_fuel : Nat → Minesweeper → Nat → Minesweeper
  | 0, g, _ => g
  | fuel + 1, g, index =>
    if (g.cell_at index).is_revealed then g
    else
      let g1 := g.write_state index CellState.Revealed
      if (g1.cell_at index).is_lone_cell then
        let connected_ndxs := g1.connected_lone_cell_indices index
        let adj_perimeter_cells := g1.perimeter_of index
        let g2 :=
          connected_ndxs.foldl (fun acc ndx => reveal_cell_fuel fuel acc ndx) g1
        adj_perimeter_cells.foldl (fun acc ndx => reveal_cell_fuel fuel acc ndx) g2
      else g1

/-- `Minesweeper::reveal_lone_cells` with fuel, as a function of its own
(its body is what the lone-cell branch of `reveal_cell_fuel` inlines). -/
def reveal_lone_cells_fuel (fuel : Nat) (g : Minesweeper) (index : Nat) :
    Minesweeper :=
  let connected_ndxs := g.connected_lone_cell_indices index
  let adj_perimeter_cells := g.perimeter_of index
  let g1 := connected_ndxs.foldl (fun acc ndx => reveal_cell_fuel fuel acc ndx) g
  adj_perimeter_cells.foldl (fun acc ndx => reveal_cell_fuel fuel acc ndx) g1

/-- `Minesweeper::reveal_cell`.  The fuel `grid.length + 2` dominates the
mutual recursion depth: each nested `reveal_lone_cells` call is triggered by a
cell that was newly revealed, and at most `grid.length` cells can be revealed. -/
def Minesweeper.reveal_cell (g : Minesweeper) (index : Nat) : Minesweeper :=
  reveal_cell_fuel (g.grid.length + 2) g index

/-- `Minesweeper::toggle_flag`: on a non-revealed cell, set Hidden when
currently Flagged and Flagged otherwise. -/
def Minesweeper.toggle_flag (g : Minesweeper) (index : Nat) : Minesweeper :=
  if !(g.cell_at index).is_revealed then
    if (g.cell_at index).is_flagged then g.write_state index CellState.Hidden
    else g.write_state index CellState.Flagged
  else g

/-- `Minesweeper::toggle_question`: on a non-revealed cell, set Hidden when
currently Questioned and Questioned otherwise. -/
def Minesweeper.toggle_question (g : Minesweeper) (index : Nat) : Minesweeper :=
  if !(g.cell_at index).is_revealed then
    if (g.cell_at index).is_questioned then g.write_state index CellState.Hidden
    else g.write_state index CellState.Questioned
  else g

/-- `Minesweeper::flag_cell`: force-set Flagged unless revealed. -/
def Minesweeper.flag_cell (g : Minesweeper) (index : Nat) : Minesweeper :=
  if !(g.cell_at index).is_revealed then g.write_state index CellState.Flagged
  else g

/-- `Minesweeper::question_cell`: force-set Questioned unless revealed. -/
def Minesweeper.question_cell (g : Minesweeper) (index : Nat) : Minesweeper :=
  if !(g.cell_at index).is_revealed then g.write_state index CellState.Questioned
  else g

/-- `Minesweeper::unmark_cell`: force-set Hidden unless revealed. -/
def Minesweeper.unmark_cell (g : Minesweeper) (index : Nat) : Minesweeper :=
  if !(g.cell_at index).is_revealed then g.write_state index CellState.Hidden
  else g

/-- `Minesweeper::mine_indices`: indices of all mined cells, via
`iter().enumerate().filter(is_mined).map(index)`. -/
def Minesweeper.mine_indices (g : Minesweeper) : List Nat :=
  ((g.grid.enum.filter (fun p => p.2.is_mined)).map (fun p => p.1))

/-- `Minesweeper::is_game_won`: every mined cell is currently flagged. -/
def Minesweeper.is_game_won (g : Minesweeper) : Bool :=
  g.mine_indices.all (fun i => (g.cell_at i).is_flagged)

/-- The mine-count formula `((rows * cols) as f32 * 0.15f32).round() as usize`
of `Minesweeper::total_mines` and `Minesweeper::init`.  The `f32` literal
`0.15f32` is exactly `5033165 / 2 ^ 25`, and `f32::round` rounds half away
from zero, which for a nonnegative value `x` is `⌊x + 1/2⌋`; over the exact
rational product this is the integer division below.  (The `f32`
multiplication itself is exact for every product appearing in the concrete
instances proved in this file.) -/
def Minesweeper.total_mines_for (num_rows num_cols : Nat) : Nat :=
  (num_rows * num_cols * 5033165 + 2 ^ 24) / 2 ^ 25

/-- `Minesweeper::total_mines` (recomputed from the dimensions, not cached). -/
def Minesweeper.total_mines (g : Minesweeper) : Nat :=
  Minesweeper.total_mines_for g.num_rows g.num_cols

/-- `Minesweeper::remaining_flags`: `total_mines() - flagged_count` on `usize`.
On the crate's `wasm32` target `usize` is 32 bits and release builds wrap on
underflow, hence the explicit `% 2 ^ 32` (debug builds would panic instead). -/
def Minesweeper.remaining_flags (g : Minesweeper) : Nat :=
  let flagged := (g.grid.filter (fun cell => cell.is_flagged)).length
  (g.total_mines + 2 ^ 32 - flagged) % 2 ^ 32

/-- The body of init's count loop:
`let cur_count = grid[adj_ndx].adj_mine_count() + 1;
 grid[adj_ndx].set_adj_mine_count(cur_count);`. -/
def bump_adj_count (g : List Cell) (adj_ndx : Nat) : List Cell :=
  g.set adj_ndx
    ((g.getD adj_ndx default).set_adj_mine_count
      ((g.getD adj_ndx default).adj_mine_count + 1))

/-- `Minesweeper::init` after the random mine indices have been drawn: place
the mines on an empty grid, then bump the adjacent mine count of every
neighbor of every mine. -/
def Minesweeper.init_from_mine_indices (num_rows num_cols : Nat)
    (mine_ndxs : List Nat) : Minesweeper :=
  let grid0 := Minesweeper.empty_grid num_rows num_cols
  let grid1 :=
    mine_ndxs.foldl (fun g index => g.set index (Cell.new CellKind.Mine)) grid0
  let grid2 :=
    mine_ndxs.foldl (fun g index =>
      (Minesweeper.adjacent_indices num_rows num_cols index).foldl
        bump_adj_count g) grid1
  { grid := grid2, num_rows := num_rows, num_cols := num_cols }

/-- `Minesweeper::init` with the random source injected as the stream `us`. -/
def Minesweeper.init (us : Nat → ℚ) (num_rows num_cols : Nat) : Minesweeper :=
  Minesweeper.init_from_mine_indices num_rows num_cols
    (Minesweeper.gen_rand_grid_indices us (num_rows * num_cols)
      (Minesweeper.total_mines_for num_rows num_cols))

/-- Modelled from the spec: the swap-index selection the spec prescribes for
the shuffle, `random_index = floor(uniform() * (i+1))` (a genuine Fisher–Yates
step, able to leave `v[i]` in place).  Defined only to compare against the
source's `shuffle`, which computes `floor(random() * i)`. -/
def shuffle_spec_go (us : Nat → ℚ) : Nat → List Nat → List Nat → List Nat
  | _, [], v => v
  | k, i :: rest, v =>
      shuffle_spec_go us (k + 1) rest
        (list_swap v i (⌊us k * ((i : ℚ) + 1)⌋.toNat))

/-- Modelled from the spec: Fisher–Yates from the end with swap index
`floor(uniform() * (i+1))`. -/
def shuffle_spec (us : Nat → ℚ) (v : List Nat) : List Nat :=
  shuffle_spec_go us 0 (List.range' 1 (v.length - 1)).reverse v

/-- Structural-equality-up-to-states relation: same dimensions, same grid
length, and every cell has the same kind and adjacent mine count.  All player
actions only rewrite `state` fields, so they preserve this relation; the
flood fill reads nothing but the layout, so it is invariant under it. -/
def SameLayout (g g' : Minesweeper) : Prop :=
  g.num_rows = g'.num_rows ∧ g.num_cols = g'.num_cols ∧
  g.grid.length = g'.grid.length ∧
  ∀ j, (g.cell_at j).kind = (g'.cell_at j).kind ∧
       (g.cell_at j).adj_mine_count = (g'.cell_at j).adj_mine_count

/-- Relation between a grid and a later snapshot of it in which the only
field that may have changed in any cell is the state, and only to Revealed.
Every step of the reveal cascade satisfies it. -/
def OnlyReveals (g g' : Minesweeper) : Prop :=
  ∀ j, g'.cell_at j = g.cell_at j ∨ (g'.cell_at j).state = CellState.Revealed

/-- The 5×5 grid of the spec's flood-fill test: a single mine forced at index
24 (bottom-right), adjacency counts computed as at init. -/
def mine24_grid : Minesweeper := Minesweeper.init_from_mine_indices 5 5 [24]

/-- The `mine24_grid` with a flag placed on cell 12 (a lone cell of the open
region), used to show the cascade reveals flagged cells. -/
def flag12_grid : Minesweeper := mine24_grid.flag_cell 12

/-- A 1×1 mineless grid whose only cell has been revealed (used to witness the
marking no-ops on revealed cells). -/
def revealed_grid : Minesweeper :=
  (Minesweeper.init_from_mine_indices 1 1 []).reveal_cell 0

/-- A 1×1 mineless grid whose only cell has been marked with a question mark
(used to exercise `toggle_flag` on a Questioned cell). -/
def questioned_grid : Minesweeper :=
  (Minesweeper.init_from_mine_indices 1 1 []).question_cell 0

/-- A 1×2 grid with a mine at index 0, then both cells flagged (the empty
cell 1 is mis-flagged), used to exercise `is_game_won`. -/
def won_overflag_grid : Minesweeper :=
  ((Minesweeper.init_from_mine_indices 1 2 [0]).flag_cell 0).flag_cell 1

/-- A 1×2 mineless grid (`total_mines` = round(2·0.15) = 0) with one cell
Flagged: flagging exceeds the mine budget, driving `remaining_flags`'s
unsigned subtraction below zero. -/
def overflag_grid : Minesweeper :=
  (Minesweeper.init_from_mine_indices 1 2 []).flag_cell 0

/-- The constant random stream 1/2 (a legal `Math::random` output). -/
def us_half : Nat → ℚ := fun _ => 1 / 2

/-- The constant random stream 0 (a legal `Math::random` output). -/
def us_zero : Nat → ℚ := fun _ => 0

/-- What the spec says `adjacent_indices` returns: the in-bounds cells of the
3×3 neighborhood centered on `index` (row and column each within distance 1),
excluding `index` itself. -/
def in_neighborhood (num_rows num_cols index n : Nat) : Prop :=
  n < num_rows * num_cols ∧
  n / num_cols ≤ index / num_cols + 1 ∧ index / num_cols ≤ n / num_cols + 1 ∧
  n % num_cols ≤ index % num_cols + 1 ∧ index % num_cols ≤ n % num_cols + 1 ∧
  n ≠ index

instance (num_rows num_cols index n : Nat) :
    Decidable (in_neighborhood num_rows num_cols index n) := by
  unfold in_neighborhood
  infer_instance

/-! ### Grid access and update lemmas -/

theorem cell_at_write_state_self (g : Minesweeper) (i : Nat) (s : CellState)
    (hi : i < g.grid.length) :
    (g.write_state i s).cell_at i = (g.cell_at i).set_state s := by
  simp [Minesweeper.write_state, Minesweeper.cell_at, List.getD_eq_getElem?_getD,
    List.getElem?_set, hi]

theorem cell_at_write_state_ne (g : Minesweeper) (i j : Nat) (s : CellState)
    (hij : i ≠ j) :
    (g.write_state i s).cell_at j = g.cell_at j := by
  simp [Minesweeper.write_state, Minesweeper.cell_at, List.getD_eq_getElem?_getD,
    List.getElem?_set, hij]

theorem length_write_state (g : Minesweeper) (i : Nat) (s : CellState) :
    (g.write_state i s).grid.length = g.grid.length := by
  simp [Minesweeper.write_state]

theorem sameLayout_refl (g : Minesweeper) : SameLayout g g :=
  ⟨rfl, rfl, rfl, fun _ => ⟨rfl, rfl⟩⟩

theorem sameLayout_trans {a b c : Minesweeper} (h1 : SameLayout a b)
    (h2 : SameLayout b c) : SameLayout a c := by
  obtain ⟨r1, c1, l1, f1⟩ := h1
  obtain ⟨r2, c2, l2, f2⟩ := h2
  refine ⟨r1.trans r2, c1.trans c2, l1.trans l2, fun j => ?_⟩
  obtain ⟨k1, n1⟩ := f1 j
  obtain ⟨k2, n2⟩ := f2 j
  exact ⟨k1.trans k2, n1.trans n2⟩

theorem sameLayout_write_state (g : Minesweeper) (i : Nat) (s : CellState) :
    SameLayout g (g.write_state i s) := by
  refine ⟨rfl, rfl, (length_write_state g i s).symm, fun j => ?_⟩
  by_cases hij : i = j
  · subst hij
    by_cases hi : i < g.grid.length
    · rw [cell_at_write_state_self g i s hi]
      exact ⟨rfl, rfl⟩
    · have : g.write_state i s = g := by
        simp [Minesweeper.write_state, List.set_eq_of_length_le (Nat.le_of_not_lt hi)]
      rw [this]
      exact ⟨rfl, rfl⟩
  · rw [cell_at_write_state_ne g i j s hij]
    exact ⟨rfl, rfl⟩

theorem is_lone_cell_layout {g g' : Minesweeper} (h : SameLayout g g') (j : Nat) :
    (g.cell_at j).is_lone_cell = (g'.cell_at j).is_lone_cell := by
  obtain ⟨-, -, -, hc⟩ := h
  obtain ⟨hk, hn⟩ := hc j
  simp [Cell.is_lone_cell, hk, hn]

theorem foldl_rel {P : Minesweeper → Minesweeper → Prop}
    (htrans : ∀ {a b c}, P a b → P b c → P a c)
    {f : Minesweeper → Nat → Minesweeper} (hstep : ∀ g x, P g (f g x))
    (hrefl : ∀ g, P g g) :
    ∀ (L : List Nat) (g : Minesweeper), P g (L.foldl f g) := by
  intro L
  induction L with
  | nil => intro g; exact hrefl g
  | cons x L ih =>
    intro g
    rw [List.foldl_cons]
    exact htrans (hstep g x) (ih (f g x))

/-! ### The flood fill depends only on the layout -/

theorem lone_loop_congr {g g' : Minesweeper} (h : SameLayout g g') :
    ∀ (fuel : Nat) (visited to_visit connected : List Nat),
      lone_loop g fuel visited to_visit connected
        = lone_loop g' fuel visited to_visit connected := by
  intro fuel
  induction fuel with
  | zero => intro _ _ _; rfl
  | succ n ih =>
    intro visited to_visit connected
    rw [lone_loop, lone_loop]
    cases hl : to_visit.getLast? with
    | none => rfl
    | some cur =>
      dsimp only
      by_cases hv : visited.contains cur
      · simp only [hv, if_true]
        exact ih _ _ _
      · simp only [hv, if_false, Bool.false_eq_true]
        rw [is_lone_cell_layout h cur, h.1, h.2.1,
          List.filter_congr (fun x _ => is_lone_cell_layout h x)]
        exact ih _ _ _

theorem connected_lone_cell_indices_congr {g g' : Minesweeper}
    (h : SameLayout g g') (index : Nat) :
    g.connected_lone_cell_indices index = g'.connected_lone_cell_indices index := by
  unfold Minesweeper.connected_lone_cell_indices
  rw [h.2.2.1]
  exact lone_loop_congr h _ _ _ _

theorem perimeter_of_congr {g g' : Minesweeper} (h : SameLayout g g')
    (index : Nat) : g.perimeter_of index = g'.perimeter_of index := by
  unfold Minesweeper.perimeter_of
  rw [connected_lone_cell_indices_congr h, h.1, h.2.1]

/-! ### Reveal cascade: layout preservation, monotonicity, frame -/

theorem onlyReveals_refl (g : Minesweeper) : OnlyReveals g g :=
  fun _ => Or.inl rfl

theorem onlyReveals_trans {a b c : Minesweeper} (h1 : OnlyReveals a b)
    (h2 : OnlyReveals b c) : OnlyReveals a c := by
  intro j
  rcases h2 j with h | h
  · rw [h]
    exact h1 j
  · exact Or.inr h

theorem onlyReveals_write_revealed (g : Minesweeper) (i : Nat) :
    OnlyReveals g (g.write_state i CellState.Revealed) := by
  intro j
  by_cases hij : i = j
  · subst hij
    by_cases hi : i < g.grid.length
    · rw [cell_at_write_state_self g i _ hi]
      exact Or.inr rfl
    · refine Or.inl ?_
      simp [Minesweeper.write_state,
        List.set_eq_of_length_le (Nat.le_of_not_lt hi)]
  · exact Or.inl (cell_at_write_state_ne g i j _ hij)

theorem reveal_cell_fuel_layout :
    ∀ (fuel : Nat) (g : Minesweeper) (index : Nat),
      SameLayout g (reveal_cell_fuel fuel g index) := by
  intro fuel
  induction fuel with
  | zero => intro g index; exact sameLayout_refl g
  | succ n ih =>
    intro g index
    have hfold : ∀ (L : List Nat) (h : Minesweeper),
        SameLayout h (L.foldl (fun acc ndx => reveal_cell_fuel n acc ndx) h) := by
      intro L
      induction L with
      | nil => intro h; exact sameLayout_refl h
      | cons x L ihL =>
        intro h
        rw [List.foldl_cons]
        exact sameLayout_trans (ih h x) (ihL _)
    rw [reveal_cell_fuel]
    dsimp only
    split
    · exact sameLayout_refl g
    · split
      · exact sameLayout_trans (sameLayout_write_state g index CellState.Revealed)
          (sameLayout_trans (hfold _ _) (hfold _ _))
      · exact sameLayout_write_state g index CellState.Revealed

theorem reveal_cell_fuel_only_reveals :
    ∀ (fuel : Nat) (g : Minesweeper) (index : Nat),
      OnlyReveals g (reveal_cell_fuel fuel g index) := by
  intro fuel
  induction fuel with
  | zero => intro g index; exact onlyReveals_refl g
  | succ n ih =>
    intro g index
    have hfold : ∀ (L : List Nat) (h : Minesweeper),
        OnlyReveals h (L.foldl (fun acc ndx => reveal_cell_fuel n acc ndx) h) := by
      intro L
      induction L with
      | nil => intro h; exact onlyReveals_refl h
      | cons x L ihL =>
        intro h
        rw [List.foldl_cons]
        exact onlyReveals_trans (ih h x) (ihL _)
    rw [reveal_cell_fuel]
    dsimp only
    split
    · exact onlyReveals_refl g
    · split
      · exact onlyReveals_trans (onlyReveals_write_revealed g index)
          (onlyReveals_trans (hfold _ _) (hfold _ _))
      · exact onlyReveals_write_revealed g index

theorem length_reveal_cell_fuel (fuel : Nat) (g : Minesweeper) (index : Nat) :
    (reveal_cell_fuel fuel g index).grid.length = g.grid.length :=
  (reveal_cell_fuel_layout fuel g index).2.2.1.symm

theorem foldl_reveal_layout (fuel : Nat) (L : List Nat) (g : Minesweeper) :
    SameLayout g (L.foldl (fun acc ndx => reveal_cell_fuel fuel acc ndx) g) := by
  induction L generalizing g with
  | nil => exact sameLayout_refl g
  | cons x L ihL =>
    rw [List.foldl_cons]
    exact sameLayout_trans (reveal_cell_fuel_layout fuel g x) (ihL _)

theorem foldl_reveal_only_reveals (fuel : Nat) (L : List Nat) (g : Minesweeper) :
    OnlyReveals g (L.foldl (fun acc ndx => reveal_cell_fuel fuel acc ndx) g) := by
  induction L generalizing g with
  | nil => exact onlyReveals_refl g
  | cons x L ihL =>
    rw [List.foldl_cons]
    exact onlyReveals_trans (reveal_cell_fuel_only_reveals fuel g x) (ihL _)

theorem reveal_cell_fuel_reveals (fuel : Nat) (g : Minesweeper) (index : Nat)
    (hf : 1 ≤ fuel) (hi : index < g.grid.length) :
    ((reveal_cell_fuel fuel g index).cell_at index).state = CellState.Revealed := by
  obtain ⟨n, rfl⟩ : ∃ n, fuel = n + 1 := ⟨fuel - 1, by omega⟩
  rw [reveal_cell_fuel]
  dsimp only
  split
  · rename_i hrev
    simpa [Cell.is_revealed] using hrev
  · have h1 : ((g.write_state index CellState.Revealed).cell_at index).state
        = CellState.Revealed := by
      rw [cell_at_write_state_self g index _ hi]
      rfl
    split
    · have mono := onlyReveals_trans
        (foldl_reveal_only_reveals n
          ((g.write_state index CellState.Revealed).connected_lone_cell_indices index)
          (g.write_state index CellState.Revealed))
        (foldl_reveal_only_reveals n
          ((g.write_state index CellState.Revealed).perimeter_of index) _)
      rcases mono index with h | h
      · rw [h]
        exact h1
      · exact h
    · exact h1

theorem foldl_reveal_reveals (fuel : Nat) (hf : 1 ≤ fuel) :
    ∀ (L : List Nat) (g : Minesweeper) (j : Nat), j ∈ L → j < g.grid.length →
      ((L.foldl (fun acc ndx => reveal_cell_fuel fuel acc ndx) g).cell_at j).state
        = CellState.Revealed := by
  intro L
  induction L with
  | nil => intro g j hj; exact absurd hj (List.not_mem_nil j)
  | cons x L ihL =>
    intro g j hj hlen
    rw [List.foldl_cons]
    rcases List.mem_cons.mp hj with rfl | hj'
    · have h1 := reveal_cell_fuel_reveals fuel g j hf hlen
      rcases foldl_reveal_only_reveals fuel L (reveal_cell_fuel fuel g j) j with h | h
      · rw [h]
        exact h1
      · exact h
    · exact ihL _ j hj' (by rw [length_reveal_cell_fuel]; exact hlen)

theorem reveal_cell_fuel_frame (g₀ : Minesweeper) (P : Nat → Prop)
    (hcl : ∀ i, P i → (g₀.cell_at i).is_lone_cell = true →
        (∀ m ∈ g₀.connected_lone_cell_indices i, P m) ∧
        (∀ m ∈ g₀.perimeter_of i, P m)) :
    ∀ (fuel : Nat) (g : Minesweeper) (index : Nat), SameLayout g₀ g → P index →
      ∀ j, ¬ P j → (reveal_cell_fuel fuel g index).cell_at j = g.cell_at j := by
  intro fuel
  induction fuel with
  | zero => intro g index _ _ j _; rfl
  | succ n ih =>
    intro g index hlay hPi j hPj
    have hfold : ∀ (L : List Nat) (h : Minesweeper), (∀ m ∈ L, P m) →
        SameLayout g₀ h →
        (L.foldl (fun acc ndx => reveal_cell_fuel n acc ndx) h).cell_at j
          = h.cell_at j := by
      intro L
      induction L with
      | nil => intro h _ _; rfl
      | cons x L ihL =>
        intro h hm hl
        rw [List.foldl_cons]
        have hx := ih h x hl (hm x (List.mem_cons_self x L)) j hPj
        have e := ihL (reveal_cell_fuel n h x)
          (fun m hm' => hm m (List.mem_cons_of_mem x hm'))
          (sameLayout_trans hl (reveal_cell_fuel_layout n h x))
        rw [e, hx]
    rw [reveal_cell_fuel]
    dsimp only
    split
    · rfl
    · have hne : index ≠ j := fun h => hPj (h ▸ hPi)
      have hg1 : (g.write_state index CellState.Revealed).cell_at j = g.cell_at j :=
        cell_at_write_state_ne g index j _ hne
      have hlay1 : SameLayout g₀ (g.write_state index CellState.Revealed) :=
        sameLayout_trans hlay (sameLayout_write_state g index CellState.Revealed)
      split
      · rename_i hlone
        have hlone₀ : (g₀.cell_at index).is_lone_cell = true := by
          rw [is_lone_cell_layout hlay1 index]
          exact hlone
        obtain ⟨hconn, hperi⟩ := hcl index hPi hlone₀
        have hconn' : ∀ m ∈ (g.write_state index
            CellState.Revealed).connected_lone_cell_indices index, P m := by
          rw [← connected_lone_cell_indices_congr hlay1]
          exact hconn
        have hperi' : ∀ m ∈ (g.write_state index
            CellState.Revealed).perimeter_of index, P m := by
          rw [← perimeter_of_congr hlay1]
          exact hperi
        have e1 := hfold _ (g.write_state index CellState.Revealed) hconn' hlay1
        have e2 := hfold ((g.write_state index CellState.Revealed).perimeter_of index)
          _ hperi'
          (sameLayout_trans hlay1
            (foldl_reveal_layout n
              ((g.write_state index
                CellState.Revealed).connected_lone_cell_indices index)
              (g.write_state index CellState.Revealed)))
        rw [e2, e1, hg1]
      · exact hg1

theorem reveal_cell_reveals_region (g : Minesweeper) (index : Nat)
    (hi : index < g.grid.length)
    (hrev : (g.cell_at index).is_revealed = false)
    (hlone : ((g.write_state index CellState.Revealed).cell_at index).is_lone_cell
      = true)
    (j : Nat) (hj : j < g.grid.length)
    (hmem : j = index ∨
      j ∈ (g.write_state index CellState.Revealed).connected_lone_cell_indices
        index ∨
      j ∈ (g.write_state index CellState.Revealed).perimeter_of index) :
    ((g.reveal_cell index).cell_at j).state = CellState.Revealed := by
  show ((reveal_cell_fuel (g.grid.length + 1 + 1) g index).cell_at j).state
    = CellState.Revealed
  rw [reveal_cell_fuel]
  dsimp only
  rw [if_neg (by rw [hrev]; exact Bool.false_ne_true), if_pos hlone]
  have hlen1 : (g.write_state index CellState.Revealed).grid.length
      = g.grid.length := length_write_state g index CellState.Revealed
  rcases hmem with rfl | hconn | hperi
  · have h1 : ((g.write_state j CellState.Revealed).cell_at j).state
        = CellState.Revealed := by
      rw [cell_at_write_state_self g j _ hi]
      rfl
    have mono := onlyReveals_trans
      (foldl_reveal_only_reveals (g.grid.length + 1)
        ((g.write_state j CellState.Revealed).connected_lone_cell_indices j)
        (g.write_state j CellState.Revealed))
      (foldl_reveal_only_reveals (g.grid.length + 1)
        ((g.write_state j CellState.Revealed).perimeter_of j) _)
    rcases mono j with h | h
    · rw [h]
      exact h1
    · exact h
  · have h1 := foldl_reveal_reveals (g.grid.length + 1) (by omega)
      ((g.write_state index CellState.Revealed).connected_lone_cell_indices index)
      (g.write_state index CellState.Revealed) j hconn (by omega)
    rcases foldl_reveal_only_reveals (g.grid.length + 1)
        ((g.write_state index CellState.Revealed).perimeter_of index) _ j with h | h
    · rw [h]
      exact h1
    · exact h
  · apply foldl_reveal_reveals (g.grid.length + 1) (by omega) _ _ j hperi
    have := (foldl_reveal_layout (g.grid.length + 1)
      ((g.write_state index CellState.Revealed).connected_lone_cell_indices index)
      (g.write_state index CellState.Revealed)).2.2.1
    omega

/-! ### Characterization of `adjacent_indices` -/

theorem range_window_iff (R N x : Nat) (hRN : R < N) :
    (R - 1 ≤ x ∧ x < R - 1 + (min (R + 1) (N - 1) + 1 - (R - 1))) ↔
      (R ≤ x + 1 ∧ x ≤ R + 1 ∧ x < N) := by
  rcases Nat.le_total (R + 1) (N - 1) with h | h
  · rw [Nat.min_eq_left h]
    omega
  · rw [Nat.min_eq_right h]
    omega

theorem mem_adjacent_indices (num_rows num_cols index n : Nat)
    (hr : 0 < num_rows) (hc : 0 < num_cols) (hi : index < num_rows * num_cols) :
    n ∈ Minesweeper.adjacent_indices num_rows num_cols index ↔
      in_neighborhood num_rows num_cols index n := by
  have hR : index / num_cols < num_rows := (Nat.div_lt_iff_lt_mul hc).mpr hi
  have hC : index % num_cols < num_cols := Nat.mod_lt _ hc
  have hidx : num_cols * (index / num_cols) + index % num_cols = index :=
    Nat.div_add_mod index num_cols
  unfold Minesweeper.adjacent_indices
  simp only [List.mem_flatMap, List.mem_filterMap, List.mem_range'_1]
  have hrs : (if index / num_cols ≤ 1 then 0 else index / num_cols - 1)
      = index / num_cols - 1 := by split <;> omega
  have hcs : (if index % num_cols ≤ 1 then 0 else index % num_cols - 1)
      = index % num_cols - 1 := by split <;> omega
  have hre : (if num_rows ≤ index / num_cols + 1 then num_rows - 1
      else index / num_cols + 1)
      = min (index / num_cols + 1) (num_rows - 1) := by split <;> omega
  have hce : (if num_cols ≤ index % num_cols + 1 then num_cols - 1
      else index % num_cols + 1)
      = min (index % num_cols + 1) (num_cols - 1) := by split <;> omega
  rw [hrs, hcs, hre, hce]
  simp only [range_window_iff _ _ _ hR, range_window_iff _ _ _ hC]
  constructor
  · rintro ⟨nr, ⟨hnr1, hnr2, hnr3⟩, nc, ⟨hnc1, hnc2, hnc3⟩, heq⟩
    have hne : ¬(nr = index / num_cols ∧ nc = index % num_cols) := by
      intro hcon
      rw [if_pos hcon] at heq
      exact Option.noConfusion heq
    rw [if_neg hne] at heq
    have hn : nr * num_cols + nc = n := Option.some.inj heq
    have hdiv : n / num_cols = nr := by
      rw [← hn, Nat.add_comm, Nat.add_mul_div_right _ _ hc,
        Nat.div_eq_of_lt hnc3, Nat.zero_add]
    have hmod : n % num_cols = nc := by
      rw [← hn, Nat.add_comm, Nat.add_mul_mod_self_right,
        Nat.mod_eq_of_lt hnc3]
    have hnlt : n < num_rows * num_cols := by
      have h1 : nr + 1 ≤ num_rows := by omega
      calc n = nr * num_cols + nc := hn.symm
        _ < nr * num_cols + num_cols := by omega
        _ = (nr + 1) * num_cols := by ring
        _ ≤ num_rows * num_cols := Nat.mul_le_mul_right _ h1
    refine ⟨hnlt, by omega, by omega, by omega, by omega, ?_⟩
    intro hcon
    subst hcon
    exact hne ⟨hdiv.symm, hmod.symm⟩
  · rintro ⟨hnlt, h1, h2, h3, h4, hne⟩
    have hNR : n / num_cols < num_rows := (Nat.div_lt_iff_lt_mul hc).mpr hnlt
    have hNC : n % num_cols < num_cols := Nat.mod_lt _ hc
    have hn : num_cols * (n / num_cols) + n % num_cols = n :=
      Nat.div_add_mod n num_cols
    refine ⟨n / num_cols, ⟨by omega, by omega, hNR⟩,
      n % num_cols, ⟨by omega, by omega, hNC⟩, ?_⟩
    have hcon : ¬(n / num_cols = index / num_cols ∧ n % num_cols = index % num_cols) := by
      rintro ⟨e1, e2⟩
      apply hne
      rw [e1, e2] at hn
      omega
    rw [if_neg hcon]
    congr 1
    rw [Nat.mul_comm]
    exact hn

theorem adjacent_indices_pairwise (num_rows num_cols index : Nat)
    (hc : 0 < num_cols) :
    (Minesweeper.adjacent_indices num_rows num_cols index).Pairwise (· < ·) := by
  unfold Minesweeper.adjacent_indices
  have hcend : (if num_cols ≤ index % num_cols + 1 then num_cols - 1
      else index % num_cols + 1) < num_cols := by split <;> omega
  rw [List.flatMap_def, List.pairwise_flatten]
  constructor
  · intro l' hl'
    rw [List.mem_map] at hl'
    obtain ⟨nr, hnr, rfl⟩ := hl'
    rw [List.pairwise_filterMap]
    refine List.Pairwise.imp ?_ (List.pairwise_lt_range' _ _)
    intro nc1 nc2 h12 b hb b' hb'
    have hb1 : b = nr * num_cols + nc1 := by
      by_cases hcen : nr = index / num_cols ∧ nc1 = index % num_cols
      · rw [if_pos hcen] at hb
        exact absurd hb (by simp)
      · rw [if_neg hcen] at hb
        simpa using hb.symm
    have hb2 : b' = nr * num_cols + nc2 := by
      by_cases hcen : nr = index / num_cols ∧ nc2 = index % num_cols
      · rw [if_pos hcen] at hb'
        exact absurd hb' (by simp)
      · rw [if_neg hcen] at hb'
        simpa using hb'.symm
    omega
  · rw [List.pairwise_map]
    refine List.Pairwise.imp ?_ (List.pairwise_lt_range' _ _)
    intro nr1 nr2 h12 x hx y hy
    rw [List.mem_filterMap] at hx hy
    obtain ⟨nc1, hnc1, hx⟩ := hx
    obtain ⟨nc2, hnc2, hy⟩ := hy
    rw [List.mem_range'_1] at hnc1 hnc2
    have hx1 : x = nr1 * num_cols + nc1 := by
      by_cases hcen : nr1 = index / num_cols ∧ nc1 = index % num_cols
      · rw [if_pos hcen] at hx
        exact absurd hx (by simp)
      · rw [if_neg hcen] at hx
        simpa using hx.symm
    have hy1 : y = nr2 * num_cols + nc2 := by
      by_cases hcen : nr2 = index / num_cols ∧ nc2 = index % num_cols
      · rw [if_pos hcen] at hy
        exact absurd hy (by simp)
      · rw [if_neg hcen] at hy
        simpa using hy.symm
    have hnc1lt : nc1 < num_cols := by omega
    have hmul : (nr1 + 1) * num_cols ≤ nr2 * num_cols :=
      Nat.mul_le_mul_right _ (by omega)
    calc x = nr1 * num_cols + nc1 := hx1
      _ < (nr1 + 1) * num_cols := by
        have : (nr1 + 1) * num_cols = nr1 * num_cols + num_cols := by ring
        omega
      _ ≤ nr2 * num_cols := hmul
      _ ≤ y := by omega

theorem adjacent_indices_nodup (num_rows num_cols index : Nat)
    (hc : 0 < num_cols) :
    (Minesweeper.adjacent_indices num_rows num_cols index).Nodup :=
  (adjacent_indices_pairwise num_rows num_cols index hc).imp
    (fun hab => Nat.ne_of_lt hab)

theorem in_neighborhood_symm {num_rows num_cols m n : Nat}
    (hm : m < num_rows * num_cols) (hn : n < num_rows * num_cols) :
    in_neighborhood num_rows num_cols m n ↔ in_neighborhood num_rows num_cols n m := by
  unfold in_neighborhood
  constructor
  · rintro ⟨-, a1, a2, a3, a4, a5⟩
    exact ⟨hm, a2, a1, a4, a3, a5.symm⟩
  · rintro ⟨-, a1, a2, a3, a4, a5⟩
    exact ⟨hn, a2, a1, a4, a3, a5.symm⟩

theorem mem_adjacent_indices_symm {num_rows num_cols m n : Nat}
    (hr : 0 < num_rows) (hc : 0 < num_cols)
    (hm : m < num_rows * num_cols) (hn : n < num_rows * num_cols) :
    (n ∈ Minesweeper.adjacent_indices num_rows num_cols m ↔
      m ∈ Minesweeper.adjacent_indices num_rows num_cols n) := by
  rw [mem_adjacent_indices num_rows num_cols m n hr hc hm,
    mem_adjacent_indices num_rows num_cols n m hr hc hn,
    in_neighborhood_symm hm hn]

theorem adjacent_indices_lt {num_rows num_cols index n : Nat}
    (hr : 0 < num_rows) (hc : 0 < num_cols) (hi : index < num_rows * num_cols)
    (h : n ∈ Minesweeper.adjacent_indices num_rows num_cols index) :
    n < num_rows * num_cols :=
  ((mem_adjacent_indices num_rows num_cols index n hr hc hi).mp h).1

/-! ### Members of the flood-fill output -/

theorem lone_loop_mem_lone (g : Minesweeper) :
    ∀ (fuel : Nat) (visited to_visit connected : List Nat),
      (∀ m ∈ connected, (g.cell_at m).is_lone_cell = true) →
      ∀ m ∈ lone_loop g fuel visited to_visit connected,
        (g.cell_at m).is_lone_cell = true := by
  intro fuel
  induction fuel with
  | zero => intro visited to_visit connected hc m hm; exact hc m hm
  | succ n ih =>
    intro visited to_visit connected hc m hm
    rw [lone_loop] at hm
    revert hm
    cases to_visit.getLast? with
    | none => exact fun hm => hc m hm
    | some cur =>
      dsimp only
      by_cases hv : visited.contains cur
      · simp only [hv, if_true]
        exact fun hm => ih _ _ _ hc m hm
      · simp only [hv, if_false, Bool.false_eq_true]
        intro hm
        by_cases hl : (g.cell_at cur).is_lone_cell
        · refine ih _ _ _ ?_ m (by simpa [hl] using hm)
          intro m' hm'
          rcases List.mem_append.mp hm' with h | h
          · exact hc m' h
          · rw [List.mem_singleton.mp h]
            exact hl
        · refine ih _ _ _ ?_ m (by simpa [hl] using hm)
          exact hc

theorem lone_loop_mem_lt (g : Minesweeper) (hr : 0 < g.num_rows)
    (hc : 0 < g.num_cols) :
    ∀ (fuel : Nat) (visited to_visit connected : List Nat),
      (∀ m ∈ to_visit, m < g.num_rows * g.num_cols) →
      (∀ m ∈ connected, m < g.num_rows * g.num_cols) →
      ∀ m ∈ lone_loop g fuel visited to_visit connected,
        m < g.num_rows * g.num_cols := by
  intro fuel
  induction fuel with
  | zero => intro visited to_visit connected _ hcon m hm; exact hcon m hm
  | succ n ih =>
    intro visited to_visit connected htv hcon m hm
    rw [lone_loop] at hm
    revert hm
    cases hlast : to_visit.getLast? with
    | none => exact fun hm => hcon m hm
    | some cur =>
      dsimp only
      have hcur : cur < g.num_rows * g.num_cols :=
        htv cur (List.mem_of_mem_getLast? hlast)
      have hrest : ∀ m ∈ to_visit.dropLast, m < g.num_rows * g.num_cols :=
        fun m hm => htv m ((List.dropLast_sublist to_visit).subset hm)
      by_cases hv : visited.contains cur
      · simp only [hv, if_true]
        exact fun hm => ih _ _ _ hrest hcon m hm
      · simp only [hv, if_false, Bool.false_eq_true]
        intro hm
        have hpush : ∀ m' ∈ to_visit.dropLast ++
            (Minesweeper.adjacent_indices g.num_rows g.num_cols cur).filter
              (fun ndx => (g.cell_at ndx).is_lone_cell),
            m' < g.num_rows * g.num_cols := by
          intro m' hm'
          rcases List.mem_append.mp hm' with h | h
          · exact hrest m' h
          · exact adjacent_indices_lt hr hc hcur (List.mem_filter.mp h).1
        by_cases hl : (g.cell_at cur).is_lone_cell
        · refine ih _ _ _ hpush ?_ m (by simpa [hl] using hm)
          intro m' hm'
          rcases List.mem_append.mp hm' with h | h
          · exact hcon m' h
          · rw [List.mem_singleton.mp h]
            exact hcur
        · exact ih _ _ _ hpush hcon m (by simpa [hl] using hm)

theorem connected_mem_lone (g : Minesweeper) (index : Nat) :
    ∀ m ∈ g.connected_lone_cell_indices index,
      (g.cell_at m).is_lone_cell = true := by
  intro m hm
  exact lone_loop_mem_lone g _ _ _ _ (by intro m' hm'; cases hm') m hm

theorem connected_mem_lt (g : Minesweeper) (index : Nat) (hr : 0 < g.num_rows)
    (hc : 0 < g.num_cols) (hi : index < g.num_rows * g.num_cols) :
    ∀ m ∈ g.connected_lone_cell_indices index, m < g.num_rows * g.num_cols := by
  intro m hm
  refine lone_loop_mem_lt g hr hc _ _ _ _ ?_ (by intro m' hm'; cases hm') m hm
  intro m' hm'
  rw [List.mem_singleton.mp hm']
  exact hi

theorem perimeter_mem (g : Minesweeper) (index : Nat) :
    ∀ m ∈ g.perimeter_of index, ∃ c ∈ g.connected_lone_cell_indices index,
      m ∈ Minesweeper.adjacent_indices g.num_rows g.num_cols c := by
  intro m hm
  unfold Minesweeper.perimeter_of at hm
  rw [List.mem_dedup, List.mem_flatMap] at hm
  exact hm

/-! ### The flood-fill test grid -/

set_option maxRecDepth 8000 in
set_option maxHeartbeats 1000000 in
/-- C1: on the 5×5 grid with a single mine at index 24 and adjacency counts
computed as at init, `reveal_cell(0)` sets every Empty-kind cell's state to
Revealed, while the Mine cell's state remains Hidden. -/
theorem c1_reveal_cascade_5x5 :
    (∀ i ∈ List.range 25, (mine24_grid.cell_at i).kind = CellKind.Empty →
      ((mine24_grid.reveal_cell 0).cell_at i).state = CellState.Revealed) ∧
    ((mine24_grid.reveal_cell 0).cell_at 24).state = CellState.Hidden := by
  have hlen : mine24_grid.grid.length = 25 := by decide
  have hrows : mine24_grid.num_rows = 5 := rfl
  have hcols : mine24_grid.num_cols = 5 := rfl
  constructor
  · have hall : ∀ i ∈ List.range 25,
        (mine24_grid.cell_at i).kind = CellKind.Empty →
        (i = 0 ∨
          i ∈ (mine24_grid.write_state 0
            CellState.Revealed).connected_lone_cell_indices 0 ∨
          i ∈ (mine24_grid.write_state 0 CellState.Revealed).perimeter_of 0) := by
      decide
    intro i hi hk
    have hi25 : i < 25 := List.mem_range.mp hi
    exact reveal_cell_reveals_region mine24_grid 0 (by omega) (by decide)
      (by decide) i (by omega) (hall i hi hk)
  · have hnotlone24 : (mine24_grid.cell_at 24).is_lone_cell = false := by decide
    have hadj24 : ∀ c ∈ Minesweeper.adjacent_indices 5 5 24,
        (mine24_grid.cell_at c).is_lone_cell = false := by decide
    have hcl : ∀ i, (i < 25 ∧ i ≠ 24) →
        (mine24_grid.cell_at i).is_lone_cell = true →
        (∀ m ∈ mine24_grid.connected_lone_cell_indices i, m < 25 ∧ m ≠ 24) ∧
        (∀ m ∈ mine24_grid.perimeter_of i, m < 25 ∧ m ≠ 24) := by
      intro i hPi _
      have hi25 : i < mine24_grid.num_rows * mine24_grid.num_cols := by
        rw [hrows, hcols]
        omega
      have hr5 : 0 < mine24_grid.num_rows := by rw [hrows]; omega
      have hc5 : 0 < mine24_grid.num_cols := by rw [hcols]; omega
      constructor
      · intro m hm
        have hml := connected_mem_lone mine24_grid i m hm
        have hmlt := connected_mem_lt mine24_grid i hr5 hc5 hi25 m hm
        rw [hrows, hcols] at hmlt
        refine ⟨by omega, ?_⟩
        intro h24
        rw [h24, hnotlone24] at hml
        exact Bool.false_ne_true hml
      · intro m hm
        obtain ⟨c, hcmem, hmadj⟩ := perimeter_mem mine24_grid i m hm
        have hclt := connected_mem_lt mine24_grid i hr5 hc5 hi25 c hcmem
        have hclone := connected_mem_lone mine24_grid i c hcmem
        rw [hrows, hcols] at hclt hmadj
        have hmlt : m < 5 * 5 := adjacent_indices_lt (by omega) (by omega)
          hclt hmadj
        refine ⟨by omega, ?_⟩
        intro h24
        rw [h24] at hmadj
        have hsym : c ∈ Minesweeper.adjacent_indices 5 5 24 :=
          (@mem_adjacent_indices_symm 5 5 c 24
            (by omega) (by omega) hclt (by omega)).mp hmadj
        rw [hadj24 c hsym] at hclone
        exact Bool.false_ne_true hclone
    have hframe := reveal_cell_fuel_frame mine24_grid
      (fun j => j < 25 ∧ j ≠ 24) hcl (mine24_grid.grid.length + 2) mine24_grid 0
      (sameLayout_refl _) (by omega) 24 (by omega)
    have hdef : mine24_grid.reveal_cell 0
        = reveal_cell_fuel (mine24_grid.grid.length + 2) mine24_grid 0 := rfl
    rw [hdef, hframe]
    decide

set_option maxRecDepth 8000 in
set_option maxHeartbeats 1000000 in
/-- C10: `reveal_cell` on a Flagged or Questioned (not-yet-Revealed) cell sets
its state to Revealed — marks give no protection — and consequently the
flood-fill cascade can reveal (and thereby un-flag) a Flagged cell lying in a
lone-cell region: on the 5×5 single-mine grid with cell 12 Flagged, revealing
cell 0 leaves cell 12 Revealed. -/
theorem c10_reveal_ignores_marks (g : Minesweeper) (index : Nat)
    (hi : index < g.grid.length)
    (_hst : (g.cell_at index).state = CellState.Flagged ∨
      (g.cell_at index).state = CellState.Questioned) :
    ((g.reveal_cell index).cell_at index).state = CellState.Revealed ∧
    (flag12_grid.cell_at 12).state = CellState.Flagged ∧
    ((flag12_grid.reveal_cell 0).cell_at 12).state = CellState.Revealed := by
  refine ⟨?_, by decide, ?_⟩
  · exact reveal_cell_fuel_reveals (g.grid.length + 2) g index (by omega) hi
  · have h12 : (12 : Nat) ∈ (flag12_grid.write_state 0
        CellState.Revealed).connected_lone_cell_indices 0 := by decide
    exact reveal_cell_reveals_region flag12_grid 0 (by decide) (by decide)
      (by decide) 12 (by decide) (Or.inr (Or.inl h12))

set_option maxRecDepth 8000 in
/-- Witness for C10 at a concrete input: revealing the Flagged cell 12 of
`flag12_grid` directly leaves it Revealed. -/
theorem c10_reveal_ignores_marks_witness :
    ((flag12_grid.reveal_cell 12).cell_at 12).state = CellState.Revealed :=
  (c10_reveal_ignores_marks flag12_grid 12 (by decide) (Or.inl (by decide))).1

/-! ### Marking operations -/

/-- C9: on a Revealed in-bounds cell, `reveal_cell`, `toggle_flag`,
`toggle_question`, `flag_cell`, `question_cell` and `unmark_cell` all leave
the entire grid state unchanged (silent no-op, no error signaled). -/
theorem c9_marking_noop_on_revealed (g : Minesweeper) (index : Nat)
    (_hi : index < g.grid.length)
    (hrev : (g.cell_at index).is_revealed = true) :
    g.reveal_cell index = g ∧ g.toggle_flag index = g ∧
    g.toggle_question index = g ∧ g.flag_cell index = g ∧
    g.question_cell index = g ∧ g.unmark_cell index = g := by
  refine ⟨?_, ?_, ?_, ?_, ?_, ?_⟩
  · show reveal_cell_fuel (g.grid.length + 2) g index = g
    rw [show g.grid.length + 2 = (g.grid.length + 1) + 1 from rfl,
      reveal_cell_fuel]
    dsimp only
    rw [if_pos hrev]
  · simp [Minesweeper.toggle_flag, hrev]
  · simp [Minesweeper.toggle_question, hrev]
  · simp [Minesweeper.flag_cell, hrev]
  · simp [Minesweeper.question_cell, hrev]
  · simp [Minesweeper.unmark_cell, hrev]

/-- Witness for C9 at a concrete input: the six operations on the revealed
cell 0 of the 1×1 revealed grid. -/
theorem c9_marking_noop_on_revealed_witness :
    revealed_grid.reveal_cell 0 = revealed_grid ∧
    revealed_grid.toggle_flag 0 = revealed_grid ∧
    revealed_grid.toggle_question 0 = revealed_grid ∧
    revealed_grid.flag_cell 0 = revealed_grid ∧
    revealed_grid.question_cell 0 = revealed_grid ∧
    revealed_grid.unmark_cell 0 = revealed_grid :=
  c9_marking_noop_on_revealed revealed_grid 0 (by decide) (by decide)

/-- C4 counterexample: `toggle_flag` on a Questioned cell does not leave it
Questioned — on the 1×1 grid with cell 0 Questioned, `toggle_flag(0)` changes
the state (to Flagged). -/
theorem c4_toggle_flag_questioned_counterexample :
    (questioned_grid.cell_at 0).state = CellState.Questioned ∧
    ((questioned_grid.toggle_flag 0).cell_at 0).state ≠ CellState.Questioned := by
  decide

/-- C4 (amended): `toggle_flag` on a non-revealed cell sets it Hidden when
currently Flagged, and Flagged otherwise; in particular a Questioned cell
becomes Flagged. -/
theorem c4_toggle_flag_questioned_becomes_flagged (g : Minesweeper)
    (index : Nat) (hi : index < g.grid.length)
    (hq : (g.cell_at index).state = CellState.Questioned) :
    ((g.toggle_flag index).cell_at index).state = CellState.Flagged := by
  have hrev : (g.cell_at index).is_revealed = false := by
    simp [Cell.is_revealed, hq]
  have hfl : (g.cell_at index).is_flagged = false := by
    simp [Cell.is_flagged, hq]
  unfold Minesweeper.toggle_flag
  rw [hrev, hfl]
  simp only [Bool.not_false, if_true, Bool.false_eq_true, if_false]
  rw [cell_at_write_state_self g index _ hi]
  rfl

/-- Witness for C4's amended statement at a concrete input. -/
theorem c4_toggle_flag_questioned_becomes_flagged_witness :
    ((questioned_grid.toggle_flag 0).cell_at 0).state = CellState.Flagged :=
  c4_toggle_flag_questioned_becomes_flagged questioned_grid 0 (by decide)
    (by decide)

/-! ### Win evaluation -/

theorem mem_mine_indices (g : Minesweeper) (i : Nat) :
    i ∈ g.mine_indices ↔
      i < g.grid.length ∧ (g.cell_at i).is_mined = true := by
  unfold Minesweeper.mine_indices
  rw [List.mem_map]
  constructor
  · rintro ⟨⟨j, c⟩, hmem, rfl⟩
    rw [List.mem_filter] at hmem
    obtain ⟨henum, hmined⟩ := hmem
    rw [List.mk_mem_enum_iff_getElem?] at henum
    have hlt : j < g.grid.length := by
      by_contra h
      rw [List.getElem?_eq_none (Nat.le_of_not_lt h)] at henum
      cases henum
    have hcell : g.cell_at j = c := by
      unfold Minesweeper.cell_at
      rw [List.getD_eq_getElem?_getD, henum]
      rfl
    rw [hcell]
    exact ⟨hlt, hmined⟩
  · rintro ⟨hlt, hmined⟩
    refine ⟨(i, g.cell_at i), ?_, rfl⟩
    rw [List.mem_filter, List.mk_mem_enum_iff_getElem?]
    refine ⟨?_, hmined⟩
    unfold Minesweeper.cell_at
    rw [List.getD_eq_getElem?_getD,
      (List.getElem?_eq_some_getElem_iff g.grid i hlt).mpr trivial]
    rfl

/-- C5 counterexample: on the 1×2 grid with the mine at 0 and both cells
Flagged, `is_game_won` returns true although the Flagged set {0, 1} is not
the mine set {0} (cell 1 is a Flagged non-mine). -/
theorem c5_is_game_won_counterexample :
    won_overflag_grid.is_game_won = true ∧
    (won_overflag_grid.cell_at 1).is_flagged = true ∧
    (won_overflag_grid.cell_at 1).is_mined = false := by
  decide

/-- C5 (amended): `is_game_won()` returns true iff every Mine-kind cell is
Flagged; it does not require that the Flagged set equal the mine set, so it
can return true while a non-mine cell is Flagged. -/
theorem c5_is_game_won_iff_all_mines_flagged (g : Minesweeper) :
    g.is_game_won = true ↔
      ∀ i ∈ List.range g.grid.length, (g.cell_at i).is_mined = true →
        (g.cell_at i).is_flagged = true := by
  unfold Minesweeper.is_game_won
  rw [List.all_eq_true]
  constructor
  · intro h i hi hm
    exact h i ((mem_mine_indices g i).mpr ⟨List.mem_range.mp hi, hm⟩)
  · intro h i hi
    obtain ⟨hlt, hm⟩ := (mem_mine_indices g i).mp hi
    exact h i (List.mem_range.mpr hlt) hm

/-! ### Flag accounting -/

/-- C6 (divergence exhibited): on the 1×2 mineless grid with one Flagged cell,
`total_mines()` is 0 and one cell is Flagged, so the exact integer difference
is −1; the code's unsigned `usize` subtraction instead wraps to
`usize::MAX = 2^32 − 1` on the crate's wasm32 target in release builds (and
panics in debug builds) — the result is never the negative difference the
spec requires. -/
theorem c6_remaining_flags_underflow :
    overflag_grid.total_mines = 0 ∧
    (overflag_grid.grid.filter (fun cell => cell.is_flagged)).length = 1 ∧
    overflag_grid.remaining_flags = 4294967295 := by
  decide

/-! ### The shuffle's swap-index formula -/

/-- C8 (divergence exhibited): the code's swap index is
`floor(random() * i)`, not the `floor(uniform() * (i+1))` of a Fisher–Yates
shuffle.  Consequently on a two-element vector the code's shuffle swaps
unconditionally — for every legal random stream the result is `[1, 0]`, so
the sampling is deterministic rather than uniform — whereas the spec's
formula leaves `[0, 1]` in place whenever `u ≥ 1/2`. -/
theorem c8_shuffle_swap_index_mismatch (us : Nat → ℚ)
    (hus : ∀ n, 0 ≤ us n ∧ us n < 1) :
    Minesweeper.shuffle us [0, 1] = [1, 0] ∧
    (1 / 2 ≤ us 0 → shuffle_spec us [0, 1] = [0, 1]) := by
  obtain ⟨h0, h1⟩ := hus 0
  constructor
  · have hfloor : (⌊us 0 * ((1 : Nat) : ℚ)⌋).toNat = 0 := by
      rw [Nat.cast_one, mul_one]
      have : ⌊us 0⌋ = 0 := by
        rw [Int.floor_eq_zero_iff]
        exact ⟨h0, h1⟩
      rw [this]
      rfl
    show shuffle_go us 0 (List.range' 1 1).reverse [0, 1] = [1, 0]
    have hr : (List.range' 1 1).reverse = [1] := rfl
    rw [hr]
    rw [shuffle_go, hfloor]
    rfl
  · intro hge
    have hfloor : (⌊us 0 * (((1 : Nat) : ℚ) + 1)⌋).toNat = 1 := by
      rw [Nat.cast_one]
      have h3 : (1 : ℚ) ≤ us 0 * (1 + 1) := by nlinarith
      have : ⌊us 0 * (1 + 1)⌋ = 1 := by
        rw [Int.floor_eq_iff]
        constructor
        · exact_mod_cast h3
        · push_cast
          linarith
      rw [this]
      rfl
    show shuffle_spec_go us 0 (List.range' 1 1).reverse [0, 1] = [0, 1]
    have hr : (List.range' 1 1).reverse = [1] := rfl
    rw [hr]
    rw [shuffle_spec_go, hfloor]
    rfl

/-- Witness for C8 at the concrete stream constantly 1/2: the code's shuffle
swaps, the spec's formula does not. -/
theorem c8_shuffle_swap_index_mismatch_witness :
    Minesweeper.shuffle us_half [0, 1] = [1, 0] ∧
    shuffle_spec us_half [0, 1] = [0, 1] := by
  have h := c8_shuffle_swap_index_mismatch us_half
    (by intro n; constructor <;> norm_num [us_half])
  exact ⟨h.1, h.2 (by norm_num [us_half])⟩

/-! ### The shuffle permutes the index vector -/

theorem swap_head_perm (w : List Nat) :
    ∀ (k : Nat) (a : Nat), k < w.length →
      List.Perm ((w.getD k 0) :: w.set k a) (a :: w) := by
  induction w with
  | nil => intro k a hk; cases hk
  | cons b w ih =>
    intro k a hk
    cases k with
    | zero =>
      simp only [List.getD_cons_zero, List.set_cons_zero]
      exact List.Perm.swap a b w
    | succ k =>
      simp only [List.getD_cons_succ, List.set_cons_succ]
      have hk' : k < w.length := by simpa using hk
      exact ((List.Perm.swap b (w.getD k 0) (w.set k a)).trans
        ((ih k a hk').cons b)).trans (List.Perm.swap a b w)

theorem list_swap_perm : ∀ (v : List Nat) (i j : Nat),
    i < v.length → j < v.length → List.Perm (list_swap v i j) v := by
  intro v
  induction v with
  | nil => intro i j hi _; cases hi
  | cons b w ih =>
    intro i j hi hj
    match i, j with
    | 0, 0 =>
      simp [list_swap]
    | 0, j' + 1 =>
      have hj' : j' < w.length := by simpa using hj
      have he : list_swap (b :: w) 0 (j' + 1) = (w.getD j' 0) :: w.set j' b := by
        simp [list_swap]
      rw [he]
      exact swap_head_perm w j' b hj'
    | i' + 1, 0 =>
      have hi' : i' < w.length := by simpa using hi
      have he : list_swap (b :: w) (i' + 1) 0 = (w.getD i' 0) :: w.set i' b := by
        simp [list_swap]
      rw [he]
      exact swap_head_perm w i' b hi'
    | i' + 1, j' + 1 =>
      have he : list_swap (b :: w) (i' + 1) (j' + 1) = b :: list_swap w i' j' := by
        simp [list_swap]
      rw [he]
      exact (ih i' j' (by simpa using hi) (by simpa using hj)).cons b

theorem length_list_swap (v : List Nat) (i j : Nat) :
    (list_swap v i j).length = v.length := by
  simp [list_swap]

theorem shuffle_go_perm (us : Nat → ℚ) (hus : ∀ n, 0 ≤ us n ∧ us n < 1) :
    ∀ (idxs : List Nat) (k : Nat) (v : List Nat),
      (∀ i ∈ idxs, 1 ≤ i ∧ i < v.length) →
      List.Perm (shuffle_go us k idxs v) v := by
  intro idxs
  induction idxs with
  | nil => intro k v _; exact List.Perm.refl v
  | cons i rest ih =>
    intro k v hb
    obtain ⟨hi1, hi2⟩ := hb i (List.mem_cons_self i rest)
    obtain ⟨h0, h1⟩ := hus k
    have hprod0 : (0 : ℚ) ≤ us k * (i : ℚ) := by positivity
    have hprodlt : us k * (i : ℚ) < (i : ℚ) := by
      have hipos : (0 : ℚ) < (i : ℚ) := by exact_mod_cast hi1
      nlinarith
    have hfl0 : 0 ≤ ⌊us k * (i : ℚ)⌋ := Int.floor_nonneg.mpr hprod0
    have hfllt : ⌊us k * (i : ℚ)⌋ < (i : Int) := Int.floor_lt.mpr (by
      exact_mod_cast hprodlt)
    have hridx : (⌊us k * (i : ℚ)⌋).toNat < v.length := by omega
    rw [shuffle_go]
    refine (ih (k + 1) _ ?_).trans (list_swap_perm v i _ hi2 hridx)
    intro m hm
    rw [length_list_swap]
    exact hb m (List.mem_cons_of_mem i hm)

theorem shuffle_perm (us : Nat → ℚ) (hus : ∀ n, 0 ≤ us n ∧ us n < 1)
    (v : List Nat) : List.Perm (Minesweeper.shuffle us v) v := by
  unfold Minesweeper.shuffle
  apply shuffle_go_perm us hus
  intro i hi
  rw [List.mem_reverse, List.mem_range'_1] at hi
  omega

theorem gen_rand_grid_indices_spec (us : Nat → ℚ)
    (hus : ∀ n, 0 ≤ us n ∧ us n < 1) (len count : Nat) :
    (Minesweeper.gen_rand_grid_indices us len count).Nodup ∧
    ∀ m ∈ Minesweeper.gen_rand_grid_indices us len count, m < len := by
  have hperm := shuffle_perm us hus (List.range len)
  constructor
  · exact (List.take_sublist _ _).nodup
      (hperm.nodup_iff.mpr (List.nodup_range len))
  · intro m hm
    have hmem : m ∈ Minesweeper.shuffle us (List.range len) :=
      (List.take_sublist _ _).subset hm
    exact List.mem_range.mp (hperm.mem_iff.mp hmem)

/-! ### The adjacency counts computed by init -/

theorem foldl_length_invariant {f : List Cell → Nat → List Cell}
    (hf : ∀ g x, (f g x).length = g.length) :
    ∀ (L : List Nat) (g : List Cell), (L.foldl f g).length = g.length := by
  intro L
  induction L with
  | nil => intro g; rfl
  | cons x L ih =>
    intro g
    rw [List.foldl_cons, ih, hf]

theorem set_adj_count_self (c : Cell) :
    c.set_adj_mine_count c.adj_mine_count = c := by
  cases c
  rfl

theorem place_mines_getD :
    ∀ (L : List Nat) (g : List Cell) (i : Nat), i < g.length →
      (L.foldl (fun acc index => acc.set index (Cell.new CellKind.Mine))
          g).getD i default
        = if i ∈ L then Cell.new CellKind.Mine else g.getD i default := by
  intro L
  induction L with
  | nil => intro g i _; simp
  | cons m L ih =>
    intro g i hi
    rw [List.foldl_cons]
    rw [ih _ i (by rw [List.length_set]; exact hi)]
    by_cases hmem : i ∈ L
    · simp [hmem]
    · by_cases him : i = m
      · subst him
        simp [hmem, List.getD_eq_getElem?_getD, List.getElem?_set, hi]
      · have hmem2 : i ∈ m :: L ↔ False := by
          simp [hmem, him]
        simp only [hmem2, if_false, hmem]
        rw [List.getD_eq_getElem?_getD,
          List.getElem?_set_ne (fun h => him h.symm),
          ← List.getD_eq_getElem?_getD]

theorem bump_fold_getD :
    ∀ (L : List Nat) (g : List Cell) (i : Nat), i < g.length →
      (L.foldl bump_adj_count g).getD i default
        = (g.getD i default).set_adj_mine_count
            ((g.getD i default).adj_mine_count + L.count i) := by
  intro L
  induction L with
  | nil =>
    intro g i _
    simp [set_adj_count_self]
  | cons m L ih =>
    intro g i hi
    rw [List.foldl_cons]
    have hlen : (bump_adj_count g m).length = g.length := by
      simp [bump_adj_count]
    rw [ih _ i (by rw [hlen]; exact hi)]
    by_cases him : m = i
    · subst him
      have hbm : (bump_adj_count g m).getD m default
          = (g.getD m default).set_adj_mine_count
              ((g.getD m default).adj_mine_count + 1) := by
        simp [bump_adj_count, List.getD_eq_getElem?_getD, List.getElem?_set, hi]
      rw [hbm]
      show ((g.getD m default).set_adj_mine_count
          ((g.getD m default).adj_mine_count + 1)).set_adj_mine_count
          (((g.getD m default).set_adj_mine_count
            ((g.getD m default).adj_mine_count + 1)).adj_mine_count
            + L.count m)
        = (g.getD m default).set_adj_mine_count
            ((g.getD m default).adj_mine_count + (m :: L).count m)
      have hcnt : (m :: L).count m = L.count m + 1 := by
        rw [List.count_cons]
        simp
      rw [hcnt]
      show (g.getD m default).set_adj_mine_count
          ((g.getD m default).adj_mine_count + 1 + L.count m)
        = (g.getD m default).set_adj_mine_count
            ((g.getD m default).adj_mine_count + (L.count m + 1))
      congr 1
      omega
    · have hbm : (bump_adj_count g m).getD i default = g.getD i default := by
        simp only [bump_adj_count]
        rw [List.getD_eq_getElem?_getD, List.getElem?_set_ne him,
          ← List.getD_eq_getElem?_getD]
      rw [hbm]
      have hcnt : (m :: L).count i = L.count i := by
        rw [List.count_cons]
        simp [him]
      rw [hcnt]

theorem foldl_foldl_flatMap (f : Nat → List Nat) :
    ∀ (L : List Nat) (g : List Cell),
      L.foldl (fun acc idx => (f idx).foldl bump_adj_count acc) g
        = (L.flatMap f).foldl bump_adj_count g := by
  intro L
  induction L with
  | nil => intro g; rfl
  | cons x L ih =>
    intro g
    rw [List.foldl_cons, List.flatMap_cons, List.foldl_append, ih]

theorem count_flatMap_eq_countP (f : Nat → List Nat) (i : Nat) :
    ∀ (L : List Nat), (∀ m ∈ L, (f m).Nodup) →
      (L.flatMap f).count i = L.countP (fun m => decide (i ∈ f m)) := by
  intro L
  induction L with
  | nil => intro _; rfl
  | cons m L ih =>
    intro hnd
    rw [List.flatMap_cons, List.count_append, List.countP_cons,
      ih (fun m' hm' => hnd m' (List.mem_cons_of_mem m hm'))]
    have hone : (f m).count i = if decide (i ∈ f m) = true then 1 else 0 := by
      by_cases hmem : i ∈ f m
      · simp only [hmem, decide_eq_true_eq, if_true]
        exact List.count_eq_one_of_mem (hnd m (List.mem_cons_self m L)) hmem
      · simp only [hmem, decide_eq_true_eq, if_false]
        exact List.count_eq_zero_of_not_mem hmem
    omega

theorem countP_mem_comm (l₁ l₂ : List Nat) (h₁ : l₁.Nodup) (h₂ : l₂.Nodup) :
    l₁.countP (fun a => decide (a ∈ l₂)) = l₂.countP (fun a => decide (a ∈ l₁)) := by
  rw [List.countP_eq_length_filter, List.countP_eq_length_filter]
  have e1 : (l₁.filter (fun a => decide (a ∈ l₂))).length
      = (l₁.toFinset ∩ l₂.toFinset).card := by
    rw [← List.toFinset_card_of_nodup (h₁.filter _)]
    congr 1
    ext x
    simp [List.mem_toFinset, List.mem_filter]
  have e2 : (l₂.filter (fun a => decide (a ∈ l₁))).length
      = (l₂.toFinset ∩ l₁.toFinset).card := by
    rw [← List.toFinset_card_of_nodup (h₂.filter _)]
    congr 1
    ext x
    simp [List.mem_toFinset, List.mem_filter]
  rw [e1, e2, Finset.inter_comm]

theorem init_from_mine_indices_cell_at (num_rows num_cols : Nat)
    (mine_ndxs : List Nat) (i : Nat) (hi : i < num_rows * num_cols) :
    (Minesweeper.init_from_mine_indices num_rows num_cols mine_ndxs).cell_at i
      = { state := CellState.Hidden,
          kind := if i ∈ mine_ndxs then CellKind.Mine else CellKind.Empty,
          adj_mine_count := (mine_ndxs.flatMap
            (fun m => Minesweeper.adjacent_indices num_rows num_cols m)).count i } := by
  unfold Minesweeper.init_from_mine_indices Minesweeper.cell_at
  dsimp only
  rw [foldl_foldl_flatMap]
  have hlen1 : (mine_ndxs.foldl
      (fun g index => g.set index (Cell.new CellKind.Mine))
      (Minesweeper.empty_grid num_rows num_cols)).length
      = num_rows * num_cols := by
    rw [foldl_length_invariant (fun g x => List.length_set g x _)]
    simp [Minesweeper.empty_grid]
  rw [bump_fold_getD _ _ i (by rw [hlen1]; exact hi)]
  rw [place_mines_getD _ _ i (by simp [Minesweeper.empty_grid, hi])]
  have hg0 : (Minesweeper.empty_grid num_rows num_cols).getD i default
      = Cell.new CellKind.Empty := by
    simp [Minesweeper.empty_grid, List.getD_eq_getElem?_getD,
      List.getElem?_replicate, hi]
  rw [hg0]
  by_cases hmem : i ∈ mine_ndxs
  · simp [Cell.new, Cell.set_adj_mine_count, hmem]
  · simp [Cell.new, Cell.set_adj_mine_count, hmem]

theorem init_from_mine_indices_adj_count (num_rows num_cols : Nat)
    (mine_ndxs : List Nat) (hr : 0 < num_rows) (hc : 0 < num_cols)
    (hnd : mine_ndxs.Nodup) (hb : ∀ m ∈ mine_ndxs, m < num_rows * num_cols)
    (i : Nat) (hi : i < num_rows * num_cols) :
    ((Minesweeper.init_from_mine_indices num_rows num_cols
        mine_ndxs).cell_at i).adj_mine_count
      = ((Minesweeper.adjacent_indices num_rows num_cols i).filter
          (fun n => ((Minesweeper.init_from_mine_indices num_rows num_cols
            mine_ndxs).cell_at n).is_mined)).length := by
  have hfil : (Minesweeper.adjacent_indices num_rows num_cols i).filter
      (fun n => ((Minesweeper.init_from_mine_indices num_rows num_cols
        mine_ndxs).cell_at n).is_mined)
      = (Minesweeper.adjacent_indices num_rows num_cols i).filter
          (fun n => decide (n ∈ mine_ndxs)) := by
    apply List.filter_congr
    intro n hn
    have hnlt := adjacent_indices_lt hr hc hi hn
    rw [init_from_mine_indices_cell_at num_rows num_cols mine_ndxs n hnlt]
    by_cases hmem : n ∈ mine_ndxs
    · simp [Cell.is_mined, hmem]
    · simp [Cell.is_mined, hmem]
  rw [hfil, init_from_mine_indices_cell_at num_rows num_cols mine_ndxs i hi]
  show (mine_ndxs.flatMap
      (fun m => Minesweeper.adjacent_indices num_rows num_cols m)).count i = _
  rw [count_flatMap_eq_countP _ i mine_ndxs
    (fun m _ => adjacent_indices_nodup num_rows num_cols m hc)]
  have hsw : mine_ndxs.countP (fun m => decide
      (i ∈ Minesweeper.adjacent_indices num_rows num_cols m))
      = mine_ndxs.countP (fun m => decide
        (m ∈ Minesweeper.adjacent_indices num_rows num_cols i)) := by
    apply List.countP_congr
    intro m hm
    simp only [decide_eq_true_eq]
    exact mem_adjacent_indices_symm hr hc (hb m hm) hi
  rw [hsw, countP_mem_comm mine_ndxs
    (Minesweeper.adjacent_indices num_rows num_cols i) hnd
    (adjacent_indices_nodup num_rows num_cols i hc),
    List.countP_eq_length_filter]

/-- C2: for every grid returned by `init` (over any legal random stream) and
every in-bounds cell — mine cells included — the cell's `adjacent_mine_count`
equals the number of Mine-kind cells located at the indices returned by
`adjacent_indices` for that cell's index. -/
theorem c2_init_adjacent_counts (us : Nat → ℚ) (num_rows num_cols i : Nat)
    (hus : ∀ n, 0 ≤ us n ∧ us n < 1) (hr : 0 < num_rows) (hc : 0 < num_cols)
    (hi : i < num_rows * num_cols) :
    ((Minesweeper.init us num_rows num_cols).cell_at i).adj_mine_count
      = ((Minesweeper.adjacent_indices num_rows num_cols i).filter
          (fun n => ((Minesweeper.init us num_rows
            num_cols).cell_at n).is_mined)).length := by
  unfold Minesweeper.init
  obtain ⟨hnd, hb⟩ := gen_rand_grid_indices_spec us hus (num_rows * num_cols)
    (Minesweeper.total_mines_for num_rows num_cols)
  exact init_from_mine_indices_adj_count num_rows num_cols _ hr hc hnd hb i hi

/-- Witness for C2 at a concrete input: the shuffled 2×2 grid over the
constant stream 1/2 places its single mine at index 2; cell 0 counts it. -/
theorem c2_init_adjacent_counts_witness :
    ((Minesweeper.init us_half 2 2).cell_at 0).adj_mine_count
      = ((Minesweeper.adjacent_indices 2 2 0).filter
          (fun n => ((Minesweeper.init us_half 2 2).cell_at n).is_mined)).length :=
  c2_init_adjacent_counts us_half 2 2 0
    (fun _ => ⟨by norm_num [us_half], by norm_num [us_half]⟩)
    (by omega) (by omega) (by omega)

theorem shuffle_go_us_zero : ∀ (idxs : List Nat) (k : Nat) (v : List Nat),
    shuffle_go us_zero k idxs v = idxs.foldl (fun w i => list_swap w i 0) v := by
  intro idxs
  induction idxs with
  | nil => intro k v; rfl
  | cons i rest ih =>
    intro k v
    rw [shuffle_go, List.foldl_cons]
    have hz : (⌊us_zero k * (i : ℚ)⌋).toNat = 0 := by
      simp [us_zero]
    rw [hz]
    exact ih (k + 1) _

theorem gen_us_zero_3_4 : Minesweeper.gen_rand_grid_indices us_zero (3 * 4)
    (Minesweeper.total_mines_for 3 4) = [1, 2] := by
  unfold Minesweeper.gen_rand_grid_indices Minesweeper.shuffle
  rw [shuffle_go_us_zero]
  decide

theorem init_us_zero_3_4 : Minesweeper.init us_zero 3 4
    = Minesweeper.init_from_mine_indices 3 4 [1, 2] := by
  unfold Minesweeper.init
  rw [gen_us_zero_3_4]

set_option maxRecDepth 4000 in
/-- C7 counterexample: `init` over the constant stream 0 on a 3×4 grid draws
the two mines at the adjacent indices 1 and 2, and the Mine cell at index 1
then has `adjacent_mine_count` 1, not 0. -/
theorem c7_mine_count_counterexample :
    ((Minesweeper.init us_zero 3 4).cell_at 1).is_mined = true ∧
    ((Minesweeper.init us_zero 3 4).cell_at 1).adj_mine_count = 1 := by
  rw [init_us_zero_3_4]
  decide

/-- C7 (amended): after `init`, a Mine-kind cell's `adjacent_mine_count` is
not fixed at 0 — like every cell's, it equals the number of Mine-kind cells
among its `adjacent_indices`, which is nonzero whenever another mine is
adjacent. -/
theorem c7_mine_cell_adjacent_count (us : Nat → ℚ) (num_rows num_cols i : Nat)
    (hus : ∀ n, 0 ≤ us n ∧ us n < 1) (hr : 0 < num_rows) (hc : 0 < num_cols)
    (hi : i < num_rows * num_cols)
    (_hm : ((Minesweeper.init us num_rows num_cols).cell_at i).is_mined = true) :
    ((Minesweeper.init us num_rows num_cols).cell_at i).adj_mine_count
      = ((Minesweeper.adjacent_indices num_rows num_cols i).filter
          (fun n => ((Minesweeper.init us num_rows
            num_cols).cell_at n).is_mined)).length := by
  unfold Minesweeper.init
  obtain ⟨hnd, hb⟩ := gen_rand_grid_indices_spec us hus (num_rows * num_cols)
    (Minesweeper.total_mines_for num_rows num_cols)
  exact init_from_mine_indices_adj_count num_rows num_cols _ hr hc hnd hb i hi

set_option maxRecDepth 4000 in
/-- Witness for C7's amended statement at the counterexample input. -/
theorem c7_mine_cell_adjacent_count_witness :
    ((Minesweeper.init us_zero 3 4).cell_at 1).adj_mine_count
      = ((Minesweeper.adjacent_indices 3 4 1).filter
          (fun n => ((Minesweeper.init us_zero 3 4).cell_at n).is_mined)).length :=
  c7_mine_cell_adjacent_count us_zero 3 4 1
    (fun _ => ⟨by norm_num [us_zero], by norm_num [us_zero]⟩)
    (by omega) (by omega) (by omega)
    (by rw [init_us_zero_3_4]; decide)

/-- C3: `adjacent_indices(rows, cols, index)` returns exactly the indices of
the cells of the 3×3 neighborhood centered on `index`, clipped to the grid
bounds and excluding `index` itself, in strictly increasing (row-major) order
and hence without duplicates; in particular for rows = cols = 5 it returns
[1, 5, 6] at index 0 and exactly 8 indices at index 7. -/
theorem c3_adjacent_indices_spec (num_rows num_cols index : Nat)
    (hr : 1 ≤ num_rows) (hc : 1 ≤ num_cols)
    (hi : index < num_rows * num_cols) :
    (∀ n, n ∈ Minesweeper.adjacent_indices num_rows num_cols index ↔
      in_neighborhood num_rows num_cols index n) ∧
    (Minesweeper.adjacent_indices num_rows num_cols index).Pairwise (· < ·) ∧
    (Minesweeper.adjacent_indices num_rows num_cols index).Nodup ∧
    Minesweeper.adjacent_indices 5 5 0 = [1, 5, 6] ∧
    (Minesweeper.adjacent_indices 5 5 7).length = 8 :=
  ⟨fun n => mem_adjacent_indices num_rows num_cols index n hr hc hi,
   adjacent_indices_pairwise num_rows num_cols index hc,
   adjacent_indices_nodup num_rows num_cols index hc,
   by decide, by decide⟩

/-- Witness for C3 at a concrete input. -/
theorem c3_adjacent_indices_spec_witness :
    Minesweeper.adjacent_indices 5 5 0 = [1, 5, 6] ∧
    (Minesweeper.adjacent_indices 5 5 7).length = 8 :=
  ⟨(c3_adjacent_indices_spec 5 5 0 (by omega) (by omega) (by omega)).2.2.2.1,
   (c3_adjacent_indices_spec 5 5 0 (by omega) (by omega) (by omega)).2.2.2.2⟩
